import Mathlib

/-!
Symbol name macros of `React/Profiler/RCTMacros.h`.

The header consists of three function-like preprocessor definitions: `_CONCAT(A, B)` with
replacement list `A##B`, `CONCAT(A, B)` with replacement list `_CONCAT(A, B)`, and
`SYMBOL_NAME(S)` with replacement list `CONCAT(__USER_LABEL_PREFIX__, S)`.

They are embedded as data (`header`) and given meaning by an executable model of macro
replacement (C11 6.10.3), in the reading implemented by GCC:

* the pending text is a stream of tokens and of end markers, one marker behind each
  replacement list; a macro is disabled from the start of its replacement list to its marker;
* a name met while its macro is disabled is marked and never replaced again;
* a function-like name is invoked when the next token is `(`; its arguments are collected
  from the stream, split at commas outside parentheses, and their number is checked;
* a parameter that is an operand of `##` receives its argument as collected, any other
  parameter receives the fully expanded argument; `##` forms one token from two spellings
  and fails when the result is not a preprocessing token;
* the replacement list is put back in front of the stream and rescanned.

The object-like definitions in force (predefined ones such as `__USER_LABEL_PREFIX__`
included) are a parameter.  Function-like definitions other than the three of the header,
stringification and variadic parameters do not occur in the header and are not modelled.
An invocation is replaced on its own: the source text that follows it is not part of the
stream, so a function-like name left at the end of a result stays as it is.
The recursion is bounded by a fuel argument; `run_mono` shows that a result reached with
some fuel is the result for every larger fuel.
-/

/-- Preprocessing token: its spelling, and the mark a macro name receives when it is met
while that macro is disabled (such a token is never replaced again). -/
structure Token where
  text : String
  noexpand : Bool
deriving DecidableEq, Repr

/-- Element of the pending text: a token, or the end of the replacement list of `name`. -/
inductive Item where
  | tok (t : Token)
  | pop (name : String)
deriving DecidableEq, Repr

/-- Diagnosed failures of macro replacement. -/
inductive Failure where
  | argCount
  | unterminated
  | invalidPaste
  | misplacedPaste
deriving DecidableEq, Repr

/-- Outcome of a computation that may fail or exhaust its fuel. -/
inductive Outcome (α : Type) where
  | ok (a : α)
  | failed (why : Failure)
  | outOfFuel
deriving DecidableEq, Repr

/-- Outcome of macro replacement. -/
abbrev Result := Outcome (List Token)

/-- Sequencing of outcomes. -/
def Outcome.bind {α β : Type} : Outcome α → (α → Outcome β) → Outcome β
  | .ok a, f => f a
  | .failed w, _ => .failed w
  | .outOfFuel, _ => .outOfFuel

/-- Mapping under an outcome. -/
def Outcome.map {α β : Type} (f : α → β) (o : Outcome α) : Outcome β :=
  o.bind (fun a => .ok (f a))

/-- Output of one token in front of the remaining output. -/
def Outcome.emit (t : Token) (r : Result) : Result := r.map (fun ts => t :: ts)

/-- Object-like definitions in force, most recent first: name and replacement list. -/
abbrev Defines := List (String × List String)

/-- Function-like definition: name, parameters, replacement list. -/
structure FnDef where
  name : String
  params : List String
  body : List String
deriving DecidableEq, Repr

/-- The three definitions of `RCTMacros.h`, token by token. -/
def header : List FnDef :=
  [ ⟨"_CONCAT", ["A", "B"], ["A", "##", "B"]⟩,
    ⟨"CONCAT", ["A", "B"], ["_CONCAT", "(", "A", ",", "B", ")"]⟩,
    ⟨"SYMBOL_NAME", ["S"], ["CONCAT", "(", "__USER_LABEL_PREFIX__", ",", "S", ")"]⟩ ]

/-- Token as written in the source text. -/
def raw (s : String) : Token := ⟨s, false⟩

/-- Mark a token as no longer available for replacement. -/
def paint (t : Token) : Token := ⟨t.text, true⟩

/-- First character of a C identifier (basic source character set). -/
def isIdentStart (c : Char) : Bool := c.isAlpha || c == '_'

/-- Later character of a C identifier. -/
def isIdentChar (c : Char) : Bool := c.isAlphanum || c == '_'

/-- Well-formed C identifier: a letter or underscore, then letters, digits, underscores. -/
def isIdentifier (s : String) : Bool :=
  match s.data with
  | [] => false
  | c :: cs => isIdentStart c && cs.all isIdentChar

/-- Tail of a preprocessing number: digits, letters, underscores, periods, and a sign
directly after `e`, `E`, `p` or `P`. -/
def ppNumberTail : Bool → List Char → Bool
  | _, [] => true
  | afterExp, c :: cs =>
    if afterExp && (c == '+' || c == '-') then ppNumberTail false cs
    else (isIdentChar c || c == '.') &&
      ppNumberTail (c == 'e' || c == 'E' || c == 'p' || c == 'P') cs

/-- Preprocessing number: a digit, or a period and a digit, then a tail. -/
def isPPNumber (s : String) : Bool :=
  match s.data with
  | [] => false
  | c :: cs =>
    if c.isDigit then ppNumberTail false cs
    else if c == '.' then
      match cs with
      | d :: cs' => d.isDigit && ppNumberTail false cs'
      | [] => false
    else false

/-- Punctuators of C11 6.4.6. -/
def punctuators : List String :=
  ["[", "]", "(", ")", "\x7b", "\x7d", ".", "->", "++", "--", "&", "*", "+", "-", "~", "!",
   "/", "%", "<<", ">>", "<", ">", "<=", ">=", "==", "!=", "^", "|", "&&", "||",
   "?", ":", ";", "...", "=", "*=", "/=", "%=", "+=", "-=", "<<=", ">>=", "&=", "^=", "|=",
   ",", "#", "##", "<:", ":>", "<%", "%>", "%:", "%:%:"]

/-- Rest of a quoted literal after the opening quote `q`: ends with the first unescaped `q`,
which must be the last character; no line break. -/
def quotedBody (q : Char) : List Char → Bool
  | [] => false
  | c :: cs =>
    if c == Char.ofNat 92 then
      match cs with
      | _ :: cs' => quotedBody q cs'
      | [] => false
    else if c == q then cs.isEmpty
    else if c == Char.ofNat 10 then false
    else quotedBody q cs

/-- String literal or non-empty character constant, without encoding prefix. -/
def isQuoted (cs : List Char) : Bool :=
  match cs with
  | q :: c :: r =>
    if q == Char.ofNat 34 then quotedBody q (c :: r)
    else if q == Char.ofNat 39 then c != q && quotedBody q (c :: r)
    else false
  | _ => false

/-- String literal or character constant with an optional encoding prefix of C11 (`u8` only
before a string literal). -/
def isLiteral (s : String) : Bool :=
  match s.data with
  | 'u' :: '8' :: r => r.head? == some (Char.ofNat 34) && isQuoted r
  | 'L' :: r => isQuoted r
  | 'u' :: r => isQuoted r
  | 'U' :: r => isQuoted r
  | r => isQuoted r

/-- Spelling of a single preprocessing token that a paste may produce. -/
def isPPToken (s : String) : Bool :=
  isIdentifier s || isPPNumber s || punctuators.contains s || isLiteral s

/-- Definition of a header macro, by name. -/
def fnDef (n : String) : Option FnDef := header.find? (fun d => d.name == n)

/-- Replacement list of an object-like macro: the name is an identifier, is not one of the
header macros, and has a definition in force. -/
def objDef (env : Defines) (n : String) : Option (List String) :=
  if isIdentifier n && (fnDef n).isNone then env.lookup n else none

/-- Whether the spelling names a macro, function-like or object-like. -/
def isMacroName (env : Defines) (n : String) : Bool :=
  (fnDef n).isSome || (objDef env n).isSome

/-- Names of the macros whose replacement lists end later in the stream. -/
def pending : List Item → List String
  | [] => []
  | .tok _ :: r => pending r
  | .pop n :: r => n :: pending r

/-- Whether macro `n` is disabled at a point of the stream: its replacement list is still
open there, or it is disabled by the context `outer` of the whole stream. -/
def disabled (outer : List String) (rest : List Item) (n : String) : Bool :=
  outer.contains n || (pending rest).contains n

/-- A token read while arguments are collected: the name of a disabled macro is marked. -/
def collectMark (env : Defines) (outer : List String) (rest : List Item) (t : Token) : Token :=
  if isMacroName env t.text && disabled outer rest t.text then paint t else t

/-- Collect the arguments of an invocation from the text after its `(`: track the
parenthesis depth `d`, split at commas of depth 0, stop at the matching `)`, pass over end
markers.  Gives the arguments and the text after the `)`, or nothing when the text ends
first. -/
def collect (env : Defines) (outer : List String) :
    Nat → List Token → List (List Token) → List Item → Option (List (List Token) × List Item)
  | _, _, _, [] => none
  | d, cur, acc, .pop _ :: rest => collect env outer d cur acc rest
  | d, cur, acc, .tok t :: rest =>
    if t.text = "(" then collect env outer (d + 1) (cur ++ [t]) acc rest
    else if t.text = ")" then
      if d = 0 then some (acc ++ [cur], rest)
      else collect env outer (d - 1) (cur ++ [t]) acc rest
    else if t.text = "," ∧ d = 0 then collect env outer 0 [] (acc ++ [cur]) rest
    else collect env outer d (cur ++ [collectMark env outer rest t]) acc rest

/-- Pass over end markers in front of the stream. -/
def skipPops : List Item → List Item
  | .pop _ :: r => skipPops r
  | r => r

/-- Position of a parameter name. -/
def paramIndex (params : List String) (b : String) : Option Nat :=
  if params.indexOf b < params.length then some (params.indexOf b) else none

/-- The operator `##` applied to two operands: the last token of the left operand and the
first token of the right operand become one new token spelled by adjoining the two
spellings, which must be a preprocessing token; an empty operand contributes nothing. -/
def pasteArgs (A B : List Token) : Result :=
  match A.getLast?, B with
  | none, _ => .ok B
  | some _, [] => .ok A
  | some a, b :: rest =>
    if isPPToken (a.text ++ b.text) then .ok (A.dropLast ++ [raw (a.text ++ b.text)] ++ rest)
    else .failed .invalidPaste

/-- Substitute the arguments into a replacement list.  Each token of the list gives one
segment; `##` gives `none`.  A parameter next to `##` gives its argument as collected, any
other parameter its argument expanded by `e`. -/
def substitute (params : List String) (args : List (List Token))
    (e : List Token → Result) : Bool → List String → Outcome (List (Option (List Token)))
  | _, [] => .ok []
  | prevPaste, b :: bs =>
    if b = "##" then (substitute params args e true bs).map (fun l => none :: l)
    else match paramIndex params b with
      | none => (substitute params args e false bs).map (fun l => some [raw b] :: l)
      | some i =>
        if prevPaste || bs.head? = some "##" then
          (substitute params args e false bs).map (fun l => some (args.getD i []) :: l)
        else
          (e (args.getD i [])).bind (fun x =>
            (substitute params args e false bs).map (fun l => some x :: l))

/-- Apply the paste operators between segments, left to right. -/
def pasteAll : List Token → List Token → List (Option (List Token)) → Result
  | acc, cur, [] => .ok (acc ++ cur)
  | acc, cur, some seg :: rest => pasteAll (acc ++ cur) seg rest
  | acc, cur, none :: some seg :: rest => (pasteArgs cur seg).bind (fun c => pasteAll acc c rest)
  | _, _, none :: _ => .failed .misplacedPaste

/-- Apply the paste operators of a substituted replacement list. -/
def pasteBody : List (Option (List Token)) → Result
  | [] => .ok []
  | none :: _ => .failed .misplacedPaste
  | some seg :: rest => pasteAll [] seg rest

/-- Replacement list of a macro with its arguments substituted and its pastes applied. -/
def replacement (params : List String) (args : List (List Token)) (e : List Token → Result)
    (body : List String) : Result :=
  (substitute params args e false body).bind pasteBody

/-- One step of macro replacement on the front of the stream.  `k` continues on a stream,
`e` expands an argument in a given context. -/
def step (k : List Item → Result) (e : List String → List Item → Result) (env : Defines)
    (outer : List String) : List Item → Result
  | [] => .ok []
  | .pop _ :: rest => k rest
  | .tok t :: rest =>
    if t.noexpand then (k rest).emit t
    else match fnDef t.text with
      | some d =>
        if disabled outer rest t.text then (k rest).emit (paint t)
        else match skipPops rest with
          | .tok p :: after =>
            if p.text = "(" then
              match collect env outer 0 [] [] after with
              | none => .failed .unterminated
              | some (args, rest') =>
                if args.length ≠ d.params.length then .failed .argCount
                else
                  (replacement d.params args
                      (fun a => e (outer ++ pending rest') (a.map Item.tok)) d.body).bind
                    (fun body => k (body.map Item.tok ++ Item.pop d.name :: rest'))
            else (k rest).emit t
          | _ => (k rest).emit t
      | none =>
        match objDef env t.text with
        | none => (k rest).emit t
        | some body =>
          if disabled outer rest t.text then (k rest).emit (paint t)
          else
            (replacement [] [] (fun a => e outer (a.map Item.tok)) body).bind
              (fun b => k (b.map Item.tok ++ Item.pop t.text :: rest))

/-- Macro replacement of a stream, bounded by fuel. -/
def run : Nat → Defines → List String → List Item → Result
  | 0, _, _, _ => .outOfFuel
  | n + 1, env, outer, s => step (run n env outer) (run n env) env outer s

/-- Full macro replacement of a token list in a context where `outer` is disabled. -/
def expandIn (n : Nat) (env : Defines) (outer : List String) (ts : List Token) : Result :=
  run n env outer (ts.map Item.tok)

/-- The invocation `_CONCAT(A, B)` in source text. -/
def _CONCAT (n : Nat) (env : Defines) (A B : List Token) : Result :=
  expandIn n env [] ([raw "_CONCAT", raw "("] ++ A ++ [raw ","] ++ B ++ [raw ")"])

/-- The invocation `CONCAT(A, B)` in source text. -/
def CONCAT (n : Nat) (env : Defines) (A B : List Token) : Result :=
  expandIn n env [] ([raw "CONCAT", raw "("] ++ A ++ [raw ","] ++ B ++ [raw ")"])

/-- The invocation `SYMBOL_NAME(S)` in source text. -/
def SYMBOL_NAME (n : Nat) (env : Defines) (S : List Token) : Result :=
  expandIn n env [] ([raw "SYMBOL_NAME", raw "("] ++ S ++ [raw ")"])

/-- Spellings of a token list. -/
def texts (ts : List Token) : List String := ts.map Token.text

/-- The computation `f` has the result `r` for every sufficiently large fuel. -/
def Yields (f : Nat → Result) (r : Result) : Prop := ∃ N, ∀ n, N ≤ n → f n = r

/-- A token that is marked, or does not name an object-like definition. -/
def settled (env : Defines) (t : Token) : Prop :=
  t.noexpand = true ∨ objDef env t.text = none

/-- A token that is marked, or names no macro at all. -/
def inert (env : Defines) (t : Token) : Prop :=
  t.noexpand = true ∨ isMacroName env t.text = false

/-- The mark a token carries after a rescan in which every header macro is disabled. -/
def rescanMark (t : Token) : Token :=
  if t.noexpand then t else if (fnDef t.text).isSome then paint t else t

/-- Parenthesis depth after a token list, when the list closes no parenthesis of the
enclosing call and has no comma outside parentheses. -/
def nesting : Nat → List Token → Option Nat
  | d, [] => some d
  | d, t :: ts =>
    if t.text = "(" then nesting (d + 1) ts
    else if t.text = ")" then (if d = 0 then none else nesting (d - 1) ts)
    else if t.text = "," ∧ d = 0 then none
    else nesting d ts

/-- A token list that is read back as exactly one macro argument: parentheses balanced, no
comma outside them. -/
def argShaped (ts : List Token) : Prop := nesting 0 ts = some 0

instance (ts : List Token) : Decidable (argShaped ts) :=
  inferInstanceAs (Decidable (nesting 0 ts = some 0))

/-- No token of the list is an unmarked name of one of the header macros. -/
def noHeaderName (ts : List Token) : Prop :=
  ∀ t ∈ ts, t.noexpand = true ∨ fnDef t.text = none

instance (ts : List Token) : Decidable (noHeaderName ts) :=
  inferInstanceAs (Decidable (∀ t ∈ ts, t.noexpand = true ∨ fnDef t.text = none))

/-! ## Fuel -/

theorem Outcome.bind_mono {α β : Type} (o : Outcome α) (f g : α → Outcome β)
    (h : ∀ a, f a ≠ .outOfFuel → g a = f a) (hne : o.bind f ≠ .outOfFuel) :
    o.bind g = o.bind f := by
  cases o with
  | ok a => exact h a hne
  | failed w => rfl
  | outOfFuel => rfl

theorem Outcome.bind_left_mono {α β : Type} (o o' : Outcome α) (f : α → Outcome β)
    (h : o ≠ .outOfFuel → o' = o) (hne : o.bind f ≠ .outOfFuel) :
    o'.bind f = o.bind f := by
  cases o with
  | ok a => rw [h (by simp)]
  | failed w => rw [h (by simp)]
  | outOfFuel => exact absurd rfl hne

theorem Outcome.bind_both_mono {α β : Type} (o o' : Outcome α) (f g : α → Outcome β)
    (ho : o ≠ .outOfFuel → o' = o) (h : ∀ a, f a ≠ .outOfFuel → g a = f a)
    (hne : o.bind f ≠ .outOfFuel) : o'.bind g = o.bind f := by
  rw [Outcome.bind_left_mono o o' g ho ?_]
  · exact Outcome.bind_mono o f g h hne
  · cases o with
    | ok a => rw [show (Outcome.ok a).bind g = g a from rfl, h a hne]; exact hne
    | failed w => simp [Outcome.bind]
    | outOfFuel => exact absurd rfl hne

theorem Outcome.map_ne_outOfFuel {α β : Type} (f : α → β) (o : Outcome α)
    (h : o.map f ≠ .outOfFuel) : o ≠ .outOfFuel := by
  intro he; subst he; exact h rfl

theorem substitute_mono (params : List String) (args : List (List Token))
    (e e' : List Token → Result) (h : ∀ x, e x ≠ .outOfFuel → e' x = e x) :
    ∀ (body : List String) (p : Bool), substitute params args e p body ≠ .outOfFuel →
      substitute params args e' p body = substitute params args e p body := by
  intro body
  induction body with
  | nil => intro p _; rfl
  | cons b bs ih =>
    intro p hne
    unfold substitute at hne ⊢
    by_cases hb : b = "##"
    · simp only [hb, if_true] at hne ⊢
      rw [ih true (Outcome.map_ne_outOfFuel _ _ hne)]
    · simp only [hb, if_false] at hne ⊢
      cases hi : paramIndex params b with
      | none =>
        simp only [hi] at hne ⊢
        rw [ih false (Outcome.map_ne_outOfFuel _ _ hne)]
      | some i =>
        simp only [hi] at hne ⊢
        by_cases hp : (p || decide (bs.head? = some "##")) = true
        · simp only [hp, if_true] at hne ⊢
          rw [ih false (Outcome.map_ne_outOfFuel _ _ hne)]
        · simp only [hp] at hne ⊢
          apply Outcome.bind_both_mono _ _ _ _ (h _) _ hne
          intro a ha
          rw [ih false (Outcome.map_ne_outOfFuel _ _ ha)]

theorem replacement_mono (params : List String) (args : List (List Token))
    (e e' : List Token → Result) (h : ∀ x, e x ≠ .outOfFuel → e' x = e x) (body : List String)
    (hne : replacement params args e body ≠ .outOfFuel) :
    replacement params args e' body = replacement params args e body := by
  unfold replacement at hne ⊢
  apply Outcome.bind_left_mono _ _ _ _ hne
  intro h2
  exact substitute_mono params args e e' h body false h2

theorem Outcome.emit_mono (t : Token) (r r' : Result) (h : r ≠ .outOfFuel → r' = r)
    (hne : r.emit t ≠ .outOfFuel) : r'.emit t = r.emit t := by
  unfold Outcome.emit Outcome.map at hne ⊢
  exact Outcome.bind_left_mono _ _ _ h hne

theorem step_mono (k k' : List Item → Result) (e e' : List String → List Item → Result)
    (env : Defines) (outer : List String)
    (hk : ∀ s, k s ≠ .outOfFuel → k' s = k s)
    (he : ∀ o s, e o s ≠ .outOfFuel → e' o s = e o s) (s : List Item)
    (hne : step k e env outer s ≠ .outOfFuel) :
    step k' e' env outer s = step k e env outer s := by
  cases s with
  | nil => rfl
  | cons i rest =>
    cases i with
    | pop m => exact hk _ hne
    | tok t =>
      unfold step at hne ⊢
      by_cases hpaint : t.noexpand = true
      · simp only [hpaint, if_true] at hne ⊢
        exact Outcome.emit_mono _ _ _ (hk _) hne
      · simp only [hpaint] at hne ⊢
        cases hd : fnDef t.text with
        | some d =>
          simp only [hd] at hne ⊢
          by_cases hdis : disabled outer rest t.text = true
          · simp only [hdis, if_true] at hne ⊢
            exact Outcome.emit_mono _ _ _ (hk _) hne
          · simp only [hdis] at hne ⊢
            cases hsk : skipPops rest with
            | nil =>
              simp only [hsk] at hne ⊢
              exact Outcome.emit_mono _ _ _ (hk _) hne
            | cons j after =>
              cases j with
              | pop m =>
                simp only [hsk] at hne ⊢
                exact Outcome.emit_mono _ _ _ (hk _) hne
              | tok p =>
                simp only [hsk] at hne ⊢
                by_cases hparen : p.text = "("
                · simp only [hparen, if_true] at hne ⊢
                  cases hcol : collect env outer 0 [] [] after with
                  | none => rfl
                  | some pr =>
                    obtain ⟨args, rest'⟩ := pr
                    simp only [hcol] at hne ⊢
                    by_cases hlen : args.length = d.params.length
                    · simp only [hlen, ne_eq, not_true_eq_false, if_false] at hne ⊢
                      apply Outcome.bind_both_mono _ _ _ _ _ _ hne
                      · intro h2
                        exact replacement_mono _ _ _ _ (fun x => he _ _) _ h2
                      · intro a ha
                        exact hk _ ha
                    · simp only [hlen, ne_eq, not_false_eq_true, if_true]
                      rfl
                · simp only [hparen, if_false] at hne ⊢
                  exact Outcome.emit_mono _ _ _ (hk _) hne
        | none =>
          simp only [hd] at hne ⊢
          cases hb : objDef env t.text with
          | none =>
            simp only [hb] at hne ⊢
            exact Outcome.emit_mono _ _ _ (hk _) hne
          | some body =>
            simp only [hb] at hne ⊢
            by_cases hdis : disabled outer rest t.text = true
            · simp only [hdis, if_true] at hne ⊢
              exact Outcome.emit_mono _ _ _ (hk _) hne
            · simp only [hdis] at hne ⊢
              apply Outcome.bind_both_mono _ _ _ _ _ _ hne
              · intro h2
                exact replacement_mono _ _ _ _ (fun x => he _ _) _ h2
              · intro a ha
                exact hk _ ha

theorem run_succ (n : Nat) : ∀ (env : Defines) (outer : List String) (s : List Item),
    run n env outer s ≠ .outOfFuel → run (n + 1) env outer s = run n env outer s := by
  induction n with
  | zero => intro env outer s h; exact absurd rfl h
  | succ n ih =>
    intro env outer s h
    show step (run (n + 1) env outer) (run (n + 1) env) env outer s
      = step (run n env outer) (run n env) env outer s
    exact step_mono _ _ _ _ env outer (fun s hs => ih env outer s hs)
      (fun o s hs => ih env o s hs) s h

theorem run_mono (n m : Nat) (env : Defines) (outer : List String) (s : List Item) (r : Result)
    (h : run n env outer s = r) (hr : r ≠ .outOfFuel) (hnm : n ≤ m) :
    run m env outer s = r := by
  induction m with
  | zero =>
    have : n = 0 := Nat.le_zero.mp hnm
    subst this; exact h
  | succ m ih =>
    by_cases hn : n = m + 1
    · subst hn; exact h
    · have hle : n ≤ m := by omega
      have := ih hle
      rw [run_succ m env outer s (by rw [this]; exact hr), this]

/-! ## Tokens that leave a run -/

theorem Outcome.emit_eq_ok (t : Token) (r : Result) (ts : List Token)
    (h : r.emit t = .ok ts) : ∃ ts', r = .ok ts' ∧ ts = t :: ts' := by
  cases r with
  | ok a =>
    refine ⟨a, rfl, ?_⟩
    have : Outcome.ok (t :: a) = Outcome.ok ts := h
    exact (Outcome.ok.inj this).symm
  | failed w => cases h
  | outOfFuel => cases h

theorem Outcome.bind_eq_ok {α β : Type} (o : Outcome α) (f : α → Outcome β) (b : β)
    (h : o.bind f = .ok b) : ∃ a, o = .ok a ∧ f a = .ok b := by
  cases o with
  | ok a => exact ⟨a, rfl, h⟩
  | failed w => cases h
  | outOfFuel => cases h

theorem objDef_of_fnDef (env : Defines) (n : String) (d : FnDef) (h : fnDef n = some d) :
    objDef env n = none := by
  unfold objDef
  simp [h]

theorem settled_paint (env : Defines) (t : Token) : settled env (paint t) := Or.inl rfl

theorem step_out_settled (k : List Item → Result) (e : List String → List Item → Result)
    (env : Defines) (outer : List String)
    (hk : ∀ s ts, k s = .ok ts → ∀ u ∈ ts, settled env u) (s : List Item) (ts : List Token)
    (h : step k e env outer s = .ok ts) : ∀ u ∈ ts, settled env u := by
  have emitCase : ∀ (t : Token) (rest : List Item), settled env t →
      (k rest).emit t = .ok ts → ∀ u ∈ ts, settled env u := by
    intro t rest ht hemit u hu
    obtain ⟨ts', hk', rfl⟩ := Outcome.emit_eq_ok _ _ _ hemit
    rcases List.mem_cons.mp hu with rfl | hu'
    · exact ht
    · exact hk _ _ hk' u hu'
  cases s with
  | nil =>
    have : ts = [] := (Outcome.ok.inj h).symm
    subst this
    intro u hu; cases hu
  | cons i rest =>
    cases i with
    | pop m => exact hk _ _ h
    | tok t =>
      unfold step at h
      by_cases hpaint : t.noexpand = true
      · simp only [hpaint, if_true] at h
        exact emitCase t rest (Or.inl hpaint) h
      · simp only [hpaint] at h
        cases hd : fnDef t.text with
        | some d =>
          simp only [hd] at h
          have hset : settled env t := Or.inr (objDef_of_fnDef env _ d hd)
          by_cases hdis : disabled outer rest t.text = true
          · simp only [hdis, if_true] at h
            exact emitCase _ rest (settled_paint env t) h
          · simp only [hdis] at h
            cases hsk : skipPops rest with
            | nil =>
              simp only [hsk] at h
              exact emitCase t rest hset h
            | cons j after =>
              cases j with
              | pop m =>
                simp only [hsk] at h
                exact emitCase t rest hset h
              | tok p =>
                simp only [hsk] at h
                by_cases hparen : p.text = "("
                · simp only [hparen, if_true] at h
                  cases hcol : collect env outer 0 [] [] after with
                  | none => simp only [hcol] at h; cases h
                  | some pr =>
                    obtain ⟨args, rest'⟩ := pr
                    simp only [hcol] at h
                    by_cases hlen : args.length = d.params.length
                    · simp only [hlen, ne_eq, not_true_eq_false, if_false] at h
                      obtain ⟨a, _, ha⟩ := Outcome.bind_eq_ok _ _ _ h
                      exact hk _ _ ha
                    · simp only [hlen, ne_eq, not_false_eq_true, if_true] at h
                      cases h
                · simp only [hparen, if_false] at h
                  exact emitCase t rest hset h
        | none =>
          simp only [hd] at h
          cases hb : objDef env t.text with
          | none =>
            simp only [hb] at h
            exact emitCase t rest (Or.inr hb) h
          | some body =>
            simp only [hb] at h
            by_cases hdis : disabled outer rest t.text = true
            · simp only [hdis, if_true] at h
              exact emitCase _ rest (settled_paint env t) h
            · simp only [hdis] at h
              obtain ⟨a, _, ha⟩ := Outcome.bind_eq_ok _ _ _ h
              exact hk _ _ ha

theorem run_out_settled (n : Nat) : ∀ (env : Defines) (outer : List String) (s : List Item)
    (ts : List Token), run n env outer s = .ok ts → ∀ u ∈ ts, settled env u := by
  induction n with
  | zero => intro env outer s ts h; cases h
  | succ n ih =>
    intro env outer s ts h
    exact step_out_settled _ _ env outer (fun s ts hs => ih env outer s ts hs) s ts h

/-! ## Basic facts -/

theorem fnDef_some (n : String) (d : FnDef) (h : fnDef n = some d) :
    n = "_CONCAT" ∨ n = "CONCAT" ∨ n = "SYMBOL_NAME" := by
  unfold fnDef header at h
  by_cases h1 : n = "_CONCAT"
  · exact Or.inl h1
  · by_cases h2 : n = "CONCAT"
    · exact Or.inr (Or.inl h2)
    · by_cases h3 : n = "SYMBOL_NAME"
      · exact Or.inr (Or.inr h3)
      · have e1 : ("_CONCAT" == n) = false := by simpa using (Ne.symm h1)
        have e2 : ("CONCAT" == n) = false := by simpa using (Ne.symm h2)
        have e3 : ("SYMBOL_NAME" == n) = false := by simpa using (Ne.symm h3)
        simp [List.find?, e1, e2, e3] at h

theorem paint_of_noexpand (t : Token) (h : t.noexpand = true) : paint t = t := by
  cases t with
  | mk tx ne =>
    simp only at h
    subst h
    rfl

theorem pending_map_tok (ts : List Token) (rest : List Item) :
    pending (ts.map Item.tok ++ rest) = pending rest := by
  induction ts with
  | nil => rfl
  | cons t ts ih => exact ih

theorem disabled_map_tok (outer : List String) (ts : List Token) (rest : List Item)
    (n : String) : disabled outer (ts.map Item.tok ++ rest) n = disabled outer rest n := by
  unfold disabled
  rw [pending_map_tok]

theorem collectMark_map_tok (env : Defines) (outer : List String) (ts : List Token)
    (rest : List Item) (t : Token) :
    collectMark env outer (ts.map Item.tok ++ rest) t = collectMark env outer rest t := by
  unfold collectMark
  rw [disabled_map_tok]

theorem collectMark_text (env : Defines) (outer : List String) (rest : List Item) (t : Token) :
    (collectMark env outer rest t).text = t.text := by
  unfold collectMark
  split <;> rfl

theorem collectMark_of_not_macro (env : Defines) (outer : List String) (rest : List Item)
    (t : Token) (h : isMacroName env t.text = false) : collectMark env outer rest t = t := by
  unfold collectMark
  simp [h]

theorem collectMark_of_inert (env : Defines) (outer : List String) (rest : List Item)
    (t : Token) (h : inert env t) : collectMark env outer rest t = t := by
  rcases h with h | h
  · unfold collectMark
    split
    · exact paint_of_noexpand t h
    · rfl
  · exact collectMark_of_not_macro env outer rest t h

theorem collectMark_of_enabled (env : Defines) (outer : List String) (rest : List Item)
    (t : Token) (h : disabled outer rest t.text = false) : collectMark env outer rest t = t := by
  unfold collectMark
  simp [h]

theorem isMacroName_of_not_identifier (env : Defines) (n : String)
    (h : isIdentifier n = false) (hf : fnDef n = none) : isMacroName env n = false := by
  unfold isMacroName objDef
  simp [h, hf]

theorem foldr_emit_ok (ts r : List Token) :
    ts.foldr Outcome.emit (Outcome.ok r) = Outcome.ok (ts ++ r) := by
  induction ts with
  | nil => rfl
  | cons t ts ih => rw [List.foldr_cons, ih]; rfl

/-! ## Rescanning tokens that name no enabled macro -/

theorem run_inert (env : Defines) (outer : List String) (rest : List Item) (n : Nat) :
    ∀ (ts : List Token), (∀ t ∈ ts, inert env t) →
      run (n + ts.length) env outer (ts.map Item.tok ++ rest)
        = ts.foldr Outcome.emit (run n env outer rest) := by
  intro ts
  induction ts with
  | nil => intro _; rfl
  | cons t ts ih =>
    intro h
    have ht := h t (List.mem_cons_self _ _)
    have ih' := ih (fun u hu => h u (List.mem_cons_of_mem _ hu))
    show step (run (n + ts.length) env outer) (run (n + ts.length) env) env outer
      (Item.tok t :: (ts.map Item.tok ++ rest)) = _
    rw [List.foldr_cons, ← ih']
    unfold step
    rcases ht with hp | hm
    · simp [hp]
    · by_cases hp : t.noexpand = true
      · simp [hp]
      · unfold isMacroName at hm
        rw [Bool.or_eq_false_iff] at hm
        have h1 : fnDef t.text = none := by
          cases hf : fnDef t.text with
          | none => rfl
          | some d => rw [hf] at hm; exact absurd hm.1 (by simp)
        have h2 : objDef env t.text = none := by
          cases hf : objDef env t.text with
          | none => rfl
          | some d => rw [hf] at hm; exact absurd hm.2 (by simp)
        simp [hp, h1, h2]

theorem run_inert_all (env : Defines) (outer : List String) (ts : List Token) (n : Nat)
    (h : ∀ t ∈ ts, inert env t) (hn : ts.length + 1 ≤ n) :
    run n env outer (ts.map Item.tok) = .ok ts := by
  obtain ⟨k, rfl⟩ : ∃ k, n = (k + 1) + ts.length := ⟨n - (ts.length + 1), by omega⟩
  have := run_inert env outer [] (k + 1) ts h
  rw [List.append_nil] at this
  rw [this]
  show ts.foldr Outcome.emit (Outcome.ok []) = _
  rw [foldr_emit_ok, List.append_nil]

theorem rescanMark_text (t : Token) : (rescanMark t).text = t.text := by
  unfold rescanMark
  split
  · rfl
  · split <;> rfl

theorem run_settled_disabled (env : Defines) (outer : List String) (rest : List Item) (n : Nat)
    (hdis : ∀ x d, fnDef x = some d → disabled outer rest x = true) :
    ∀ (ts : List Token), (∀ t ∈ ts, settled env t) →
      run (n + ts.length) env outer (ts.map Item.tok ++ rest)
        = (ts.map rescanMark).foldr Outcome.emit (run n env outer rest) := by
  intro ts
  induction ts with
  | nil => intro _; rfl
  | cons t ts ih =>
    intro h
    have ht := h t (List.mem_cons_self _ _)
    have ih' := ih (fun u hu => h u (List.mem_cons_of_mem _ hu))
    show step (run (n + ts.length) env outer) (run (n + ts.length) env) env outer
      (Item.tok t :: (ts.map Item.tok ++ rest)) = _
    rw [List.map_cons, List.foldr_cons, ← ih']
    unfold step rescanMark
    by_cases hp : t.noexpand = true
    · simp [hp]
    · cases hd : fnDef t.text with
      | some d =>
        have := hdis _ d hd
        simp [hp, hd, disabled_map_tok, this]
      | none =>
        rcases ht with hp' | hm
        · exact absurd hp' hp
        · simp [hp, hd, hm]

/-! ## Collecting arguments -/

theorem collectMark_lparen (env : Defines) (outer : List String) (rest : List Item) (t : Token)
    (h : t.text = "(") : collectMark env outer rest t = t :=
  collectMark_of_not_macro env outer rest t (by
    rw [h]; exact isMacroName_of_not_identifier env "(" (by decide) (by decide))

theorem collectMark_rparen (env : Defines) (outer : List String) (rest : List Item) (t : Token)
    (h : t.text = ")") : collectMark env outer rest t = t :=
  collectMark_of_not_macro env outer rest t (by
    rw [h]; exact isMacroName_of_not_identifier env ")" (by decide) (by decide))

theorem collect_tok (env : Defines) (outer : List String) (d : Nat) (cur : List Token)
    (acc : List (List Token)) (t : Token) (rest : List Item) :
    collect env outer d cur acc (Item.tok t :: rest) =
      if t.text = "(" then collect env outer (d + 1) (cur ++ [t]) acc rest
      else if t.text = ")" then
        if d = 0 then some (acc ++ [cur], rest)
        else collect env outer (d - 1) (cur ++ [t]) acc rest
      else if t.text = "," ∧ d = 0 then collect env outer 0 [] (acc ++ [cur]) rest
      else collect env outer d (cur ++ [collectMark env outer rest t]) acc rest := by
  rw [collect]

theorem collect_append (env : Defines) (outer : List String) (rest : List Item)
    (acc : List (List Token)) :
    ∀ (ts : List Token) (d : Nat) (cur : List Token) (d' : Nat), nesting d ts = some d' →
      collect env outer d cur acc (ts.map Item.tok ++ rest)
        = collect env outer d' (cur ++ ts.map (collectMark env outer rest)) acc rest := by
  intro ts
  induction ts with
  | nil =>
    intro d cur d' h
    have : d = d' := Option.some.inj h
    subst this
    simp
  | cons t ts ih =>
    intro d cur d' h
    unfold nesting at h
    rw [List.map_cons, List.cons_append, collect_tok]
    by_cases h1 : t.text = "("
    · simp only [h1, if_true] at h ⊢
      rw [ih _ _ _ h, List.map_cons, collectMark_lparen env outer rest t h1]
      simp
    · simp only [h1, if_false] at h ⊢
      by_cases h2 : t.text = ")"
      · simp only [h2, if_true] at h ⊢
        by_cases hd : d = 0
        · simp [hd] at h
        · simp only [hd, if_false] at h ⊢
          rw [ih _ _ _ h, List.map_cons, collectMark_rparen env outer rest t h2]
          simp
      · simp only [h2, if_false] at h ⊢
        by_cases h3 : t.text = "," ∧ d = 0
        · simp [h3] at h
        · simp only [h3, if_false] at h ⊢
          rw [ih _ _ _ h, List.map_cons, collectMark_map_tok]
          simp

theorem collect_one (env : Defines) (outer : List String) (rest : List Item) (ts : List Token)
    (h : argShaped ts) :
    collect env outer 0 [] [] (ts.map Item.tok ++ Item.tok (raw ")") :: rest)
      = some ([ts.map (collectMark env outer rest)], rest) := by
  have hcm : collectMark env outer (Item.tok (raw ")") :: rest) = collectMark env outer rest := by
    funext t
    exact collectMark_map_tok env outer [raw ")"] rest t
  rw [collect_append env outer _ [] ts 0 [] 0 h, collect_tok, hcm]
  simp [raw]

theorem collect_two (env : Defines) (outer : List String) (rest : List Item)
    (as bs : List Token) (ha : argShaped as) (hb : argShaped bs) :
    collect env outer 0 [] []
        (as.map Item.tok ++ Item.tok (raw ",") :: (bs.map Item.tok ++ Item.tok (raw ")") :: rest))
      = some ([as.map (collectMark env outer rest), bs.map (collectMark env outer rest)],
          rest) := by
  rw [collect_append env outer _ [] as 0 [] 0 ha, collect_tok]
  simp only [raw, List.nil_append]
  rw [if_neg (by decide), if_neg (by decide), if_pos (by decide),
    collect_append env outer _ _ bs 0 [] 0 hb, collect_tok]
  have e1 : ∀ t, collectMark env outer
      (Item.tok { text := ",", noexpand := false } ::
        (List.map Item.tok bs ++ Item.tok { text := ")", noexpand := false } :: rest)) t
      = collectMark env outer rest t := by
    intro t
    have := collectMark_map_tok env outer ([raw ","] ++ bs ++ [raw ")"]) rest t
    simpa [raw] using this
  have e2 : ∀ t, collectMark env outer (Item.tok { text := ")", noexpand := false } :: rest) t
      = collectMark env outer rest t := by
    intro t
    have := collectMark_map_tok env outer [raw ")"] rest t
    simpa [raw] using this
  simp [e1, e2]

/-! ## The replacement lists of the three header macros -/

theorem replacement_rawCONCAT (x y : List Token) (e : List Token → Result) :
    replacement ["A", "B"] [x, y] e ["A", "##", "B"] = pasteArgs x y := by
  have hs : substitute ["A", "B"] [x, y] e false ["A", "##", "B"]
      = .ok [some x, none, some y] := by
    simp [substitute, paramIndex, Outcome.map, Outcome.bind, List.indexOf, List.findIdx,
      List.findIdx.go]
  unfold replacement
  rw [hs]
  show (pasteArgs x y).bind (fun c => Outcome.ok ([] ++ c)) = pasteArgs x y
  cases pasteArgs x y <;> rfl

theorem replacement_CONCAT (x y : List Token) (e : List Token → Result) :
    replacement ["A", "B"] [x, y] e ["_CONCAT", "(", "A", ",", "B", ")"]
      = (e x).bind (fun x' => (e y).bind (fun y' =>
          .ok (raw "_CONCAT" :: raw "(" :: (x' ++ raw "," :: (y' ++ [raw ")"]))))) := by
  unfold replacement
  simp only [substitute, paramIndex, List.indexOf, List.findIdx, List.findIdx.go, Outcome.map]
  simp
  generalize e x = ex
  generalize e y = ey
  cases ex with
  | ok x' =>
    cases ey with
    | ok y' => simp [Outcome.bind, pasteBody, pasteAll]
    | failed w => rfl
    | outOfFuel => rfl
  | failed w => rfl
  | outOfFuel => rfl

theorem replacement_SYMBOL_NAME (x : List Token) (e : List Token → Result) :
    replacement ["S"] [x] e ["CONCAT", "(", "__USER_LABEL_PREFIX__", ",", "S", ")"]
      = (e x).bind (fun x' =>
          .ok (raw "CONCAT" :: raw "(" :: raw "__USER_LABEL_PREFIX__" :: raw "," ::
            (x' ++ [raw ")"]))) := by
  unfold replacement
  simp only [substitute, paramIndex, List.indexOf, List.findIdx, List.findIdx.go, Outcome.map]
  simp
  generalize e x = ex
  cases ex with
  | ok x' => simp [Outcome.bind, pasteBody, pasteAll]
  | failed w => rfl
  | outOfFuel => rfl

/-! ## One step of each header macro on a well-shaped call -/

theorem disabled_cons_tok (outer : List String) (t : Token) (rest : List Item) (n : String) :
    disabled outer (Item.tok t :: rest) n = disabled outer rest n := rfl

theorem run_call_rawCONCAT (n : Nat) (env : Defines) (outer : List String) (rest : List Item)
    (as bs : List Token) (ha : argShaped as) (hb : argShaped bs)
    (hen : disabled outer rest "_CONCAT" = false) :
    run (n + 1) env outer
        (Item.tok (raw "_CONCAT") :: Item.tok (raw "(") ::
          (as.map Item.tok ++ Item.tok (raw ",") :: (bs.map Item.tok ++ Item.tok (raw ")") :: rest)))
      = (pasteArgs (as.map (collectMark env outer rest)) (bs.map (collectMark env outer rest))).bind
          (fun c => run n env outer (c.map Item.tok ++ Item.pop "_CONCAT" :: rest)) := by
  have hfd : fnDef "_CONCAT" = some ⟨"_CONCAT", ["A", "B"], ["A", "##", "B"]⟩ := by decide
  have hdis : disabled outer (Item.tok (raw "(") ::
      (as.map Item.tok ++ Item.tok (raw ",") :: (bs.map Item.tok ++ Item.tok (raw ")") :: rest)))
      "_CONCAT" = false := by
    rw [disabled_cons_tok, disabled_map_tok, disabled_cons_tok, disabled_map_tok,
      disabled_cons_tok, hen]
  show step (run n env outer) (run n env) env outer _ = _
  rw [step]
  simp only [raw, Bool.false_eq_true, if_false, hfd]
  simp only [raw] at hdis
  rw [hdis]
  simp only [Bool.false_eq_true, if_false, skipPops, if_true]
  have hcol := collect_two env outer rest as bs ha hb
  simp only [raw] at hcol
  rw [hcol]
  simp only [List.length_cons, List.length_nil, ne_eq, not_true_eq_false, if_false]
  rw [replacement_rawCONCAT]

theorem run_call_CONCAT (n : Nat) (env : Defines) (outer : List String) (rest : List Item)
    (as bs : List Token) (ha : argShaped as) (hb : argShaped bs)
    (hen : disabled outer rest "CONCAT" = false) :
    run (n + 1) env outer
        (Item.tok (raw "CONCAT") :: Item.tok (raw "(") ::
          (as.map Item.tok ++ Item.tok (raw ",") :: (bs.map Item.tok ++ Item.tok (raw ")") :: rest)))
      = (run n env (outer ++ pending rest)
            ((as.map (collectMark env outer rest)).map Item.tok)).bind (fun x =>
          (run n env (outer ++ pending rest)
            ((bs.map (collectMark env outer rest)).map Item.tok)).bind (fun y =>
            run n env outer
              (Item.tok (raw "_CONCAT") :: Item.tok (raw "(") ::
                (x.map Item.tok ++ Item.tok (raw ",") ::
                  (y.map Item.tok ++ Item.tok (raw ")") :: Item.pop "CONCAT" :: rest))))) := by
  have hfd : fnDef "CONCAT"
      = some ⟨"CONCAT", ["A", "B"], ["_CONCAT", "(", "A", ",", "B", ")"]⟩ := by decide
  have hdis : disabled outer (Item.tok (raw "(") ::
      (as.map Item.tok ++ Item.tok (raw ",") :: (bs.map Item.tok ++ Item.tok (raw ")") :: rest)))
      "CONCAT" = false := by
    rw [disabled_cons_tok, disabled_map_tok, disabled_cons_tok, disabled_map_tok,
      disabled_cons_tok, hen]
  show step (run n env outer) (run n env) env outer _ = _
  rw [step]
  simp only [raw, Bool.false_eq_true, if_false, hfd]
  simp only [raw] at hdis
  rw [hdis]
  simp only [Bool.false_eq_true, if_false, skipPops, if_true]
  have hcol := collect_two env outer rest as bs ha hb
  simp only [raw] at hcol
  rw [hcol]
  simp only [List.length_cons, List.length_nil, ne_eq, not_true_eq_false, if_false]
  rw [replacement_CONCAT]
  generalize run n env (outer ++ pending rest)
    ((as.map (collectMark env outer rest)).map Item.tok) = rx
  generalize run n env (outer ++ pending rest)
    ((bs.map (collectMark env outer rest)).map Item.tok) = ry
  cases rx with
  | ok x =>
    cases ry with
    | ok y => simp [Outcome.bind, raw]
    | failed w => rfl
    | outOfFuel => rfl
  | failed w => rfl
  | outOfFuel => rfl

theorem run_call_SYMBOL_NAME (n : Nat) (env : Defines) (outer : List String) (rest : List Item)
    (ss : List Token) (hs : argShaped ss) (hen : disabled outer rest "SYMBOL_NAME" = false) :
    run (n + 1) env outer
        (Item.tok (raw "SYMBOL_NAME") :: Item.tok (raw "(") ::
          (ss.map Item.tok ++ Item.tok (raw ")") :: rest))
      = (run n env (outer ++ pending rest)
            ((ss.map (collectMark env outer rest)).map Item.tok)).bind (fun x =>
          run n env outer
            (Item.tok (raw "CONCAT") :: Item.tok (raw "(") ::
              ([raw "__USER_LABEL_PREFIX__"].map Item.tok ++ Item.tok (raw ",") ::
                (x.map Item.tok ++ Item.tok (raw ")") :: Item.pop "SYMBOL_NAME" :: rest)))) := by
  have hfd : fnDef "SYMBOL_NAME" = some ⟨"SYMBOL_NAME", ["S"],
      ["CONCAT", "(", "__USER_LABEL_PREFIX__", ",", "S", ")"]⟩ := by decide
  have hdis : disabled outer (Item.tok (raw "(") ::
      (ss.map Item.tok ++ Item.tok (raw ")") :: rest)) "SYMBOL_NAME" = false := by
    rw [disabled_cons_tok, disabled_map_tok, disabled_cons_tok, hen]
  show step (run n env outer) (run n env) env outer _ = _
  rw [step]
  simp only [raw, Bool.false_eq_true, if_false, hfd]
  simp only [raw] at hdis
  rw [hdis]
  simp only [Bool.false_eq_true, if_false, skipPops, if_true]
  have hcol := collect_one env outer rest ss hs
  simp only [raw] at hcol
  rw [hcol]
  simp only [List.length_cons, List.length_nil, ne_eq, not_true_eq_false, if_false]
  rw [replacement_SYMBOL_NAME]
  generalize run n env (outer ++ pending rest)
    ((ss.map (collectMark env outer rest)).map Item.tok) = rx
  cases rx with
  | ok x => simp [Outcome.bind, raw]
  | failed w => rfl
  | outOfFuel => rfl

/-! ## The three macros, stage by stage -/

theorem collectMark_nothing_disabled (env : Defines) (t : Token) :
    collectMark env [] [] t = t :=
  collectMark_of_enabled env [] [] t rfl

theorem map_collectMark_nothing_disabled (env : Defines) (ts : List Token) :
    ts.map (collectMark env [] []) = ts := by
  induction ts with
  | nil => rfl
  | cons t ts ih => rw [List.map_cons, ih, collectMark_nothing_disabled]

theorem map_collectMark_inert (env : Defines) (outer : List String) (rest : List Item)
    (ts : List Token) (h : ∀ t ∈ ts, inert env t) : ts.map (collectMark env outer rest) = ts := by
  induction ts with
  | nil => rfl
  | cons t ts ih =>
    rw [List.map_cons, ih (fun u hu => h u (List.mem_cons_of_mem _ hu)),
      collectMark_of_inert env outer rest t (h t (List.mem_cons_self _ _))]

theorem rawCONCAT_core (n : Nat) (env : Defines) (as bs : List Token)
    (ha : argShaped as) (hb : argShaped bs) :
    _CONCAT (n + 1) env as bs
      = (pasteArgs as bs).bind
          (fun c => run n env [] (c.map Item.tok ++ [Item.pop "_CONCAT"])) := by
  have h := run_call_rawCONCAT n env [] [] as bs ha hb rfl
  rw [map_collectMark_nothing_disabled, map_collectMark_nothing_disabled] at h
  unfold _CONCAT expandIn
  simpa using h

theorem CONCAT_core (n : Nat) (env : Defines) (as bs xs ys : List Token)
    (ha : argShaped as) (hb : argShaped bs)
    (hA : run (n + 1) env [] (as.map Item.tok) = .ok xs)
    (hB : run (n + 1) env [] (bs.map Item.tok) = .ok ys)
    (hx : argShaped xs) (hy : argShaped ys) :
    CONCAT (n + 2) env as bs
      = (pasteArgs (xs.map (collectMark env [] [Item.pop "CONCAT"]))
            (ys.map (collectMark env [] [Item.pop "CONCAT"]))).bind
          (fun c => run n env [] (c.map Item.tok ++ [Item.pop "_CONCAT", Item.pop "CONCAT"])) := by
  have h := run_call_CONCAT (n + 1) env [] [] as bs ha hb rfl
  rw [map_collectMark_nothing_disabled, map_collectMark_nothing_disabled] at h
  have hp : ([] : List String) ++ pending [] = [] := rfl
  rw [hp, hA, hB] at h
  have h2 := run_call_rawCONCAT n env [] [Item.pop "CONCAT"] xs ys hx hy (by decide)
  unfold CONCAT expandIn
  simp only [List.map_append, List.map_cons, List.map_nil, List.cons_append, List.nil_append,
    List.append_assoc]
  simp only [Outcome.bind] at h
  rw [h, h2]

theorem SYMBOL_NAME_core (n : Nat) (env : Defines) (ss ts ts2 ps : List Token)
    (hSa : argShaped ss)
    (hS : run (n + 2) env [] (ss.map Item.tok) = .ok ts)
    (hts : argShaped ts)
    (hP : run (n + 1) env ["SYMBOL_NAME"] [Item.tok (raw "__USER_LABEL_PREFIX__")] = .ok ps)
    (hR : run (n + 1) env ["SYMBOL_NAME"]
      ((ts.map (collectMark env [] [Item.pop "SYMBOL_NAME"])).map Item.tok) = .ok ts2)
    (hps : argShaped ps) (hts2 : argShaped ts2) :
    SYMBOL_NAME (n + 3) env ss
      = (pasteArgs (ps.map (collectMark env [] [Item.pop "CONCAT", Item.pop "SYMBOL_NAME"]))
            (ts2.map (collectMark env [] [Item.pop "CONCAT", Item.pop "SYMBOL_NAME"]))).bind
          (fun c => run n env []
            (c.map Item.tok ++ [Item.pop "_CONCAT", Item.pop "CONCAT", Item.pop "SYMBOL_NAME"])) := by
  have h1 := run_call_SYMBOL_NAME (n + 2) env [] [] ss hSa rfl
  rw [map_collectMark_nothing_disabled] at h1
  have hp : ([] : List String) ++ pending [] = [] := rfl
  rw [hp, hS] at h1
  have h2 := run_call_CONCAT (n + 1) env [] [Item.pop "SYMBOL_NAME"]
    [raw "__USER_LABEL_PREFIX__"] ts (by decide) hts (by decide)
  have hp2 : ([] : List String) ++ pending [Item.pop "SYMBOL_NAME"] = ["SYMBOL_NAME"] := rfl
  have hcm : [raw "__USER_LABEL_PREFIX__"].map (collectMark env [] [Item.pop "SYMBOL_NAME"])
      = [raw "__USER_LABEL_PREFIX__"] := by
    rw [List.map_cons, List.map_nil, collectMark_of_enabled _ _ _ _ (by decide)]
  rw [hp2, hcm] at h2
  have hP' : run (n + 1) env ["SYMBOL_NAME"] ([raw "__USER_LABEL_PREFIX__"].map Item.tok)
      = .ok ps := hP
  rw [hP', hR] at h2
  have h3 := run_call_rawCONCAT n env [] [Item.pop "CONCAT", Item.pop "SYMBOL_NAME"] ps ts2
    hps hts2 (by decide)
  unfold SYMBOL_NAME expandIn
  simp only [List.map_append, List.map_cons, List.map_nil, List.cons_append, List.nil_append,
    List.append_assoc]
  simp only [Outcome.bind] at h1 h2
  rw [h1, h2, h3]

/-! ## Results that do not depend on the fuel -/

theorem yields_expandIn (N : Nat) (env : Defines) (outer : List String) (ts : List Token)
    (r : Result) (h : expandIn N env outer ts = r) (hr : r ≠ .outOfFuel) :
    Yields (fun n => expandIn n env outer ts) r :=
  ⟨N, fun n hn => run_mono N n env outer _ r h hr hn⟩

theorem yields_SYMBOL_NAME (N : Nat) (env : Defines) (S : List Token) (r : Result)
    (h : SYMBOL_NAME N env S = r) (hr : r ≠ .outOfFuel) :
    Yields (fun n => SYMBOL_NAME n env S) r :=
  ⟨N, fun n hn => run_mono N n env [] _ r h hr hn⟩

theorem yields_CONCAT (N : Nat) (env : Defines) (A B : List Token) (r : Result)
    (h : CONCAT N env A B = r) (hr : r ≠ .outOfFuel) :
    Yields (fun n => CONCAT n env A B) r :=
  ⟨N, fun n hn => run_mono N n env [] _ r h hr hn⟩

theorem yields_rawCONCAT (N : Nat) (env : Defines) (A B : List Token) (r : Result)
    (h : _CONCAT N env A B = r) (hr : r ≠ .outOfFuel) :
    Yields (fun n => _CONCAT n env A B) r :=
  ⟨N, fun n hn => run_mono N n env [] _ r h hr hn⟩

theorem yields_settled (env : Defines) (outer : List String) (xs ts : List Token)
    (h : Yields (fun n => expandIn n env outer xs) (.ok ts)) : ∀ u ∈ ts, settled env u := by
  obtain ⟨N, hN⟩ := h
  exact run_out_settled N env outer _ ts (hN N (Nat.le_refl _))

theorem inert_of_settled (env : Defines) (t : Token) (h : settled env t)
    (hf : t.noexpand = true ∨ fnDef t.text = none) : inert env t := by
  rcases hf with hf | hf
  · exact Or.inl hf
  · rcases h with h | h
    · exact Or.inl h
    · right
      unfold isMacroName
      simp [hf, h]

theorem run_punctuation (k : Nat) (env : Defines) (outer : List String) (s : String)
    (hi : isIdentifier s = false) (hf : fnDef s = none) :
    run (k + 2) env outer [Item.tok (raw s)] = .ok [raw s] := by
  show step (run (k + 1) env outer) (run (k + 1) env) env outer [Item.tok (raw s)] = _
  rw [step]
  have : objDef env s = none := by unfold objDef; simp [hi]
  simp only [raw, Bool.false_eq_true, if_false, hf, this]
  rfl

theorem argShaped_single (S : String) (h1 : S ≠ "(") (h2 : S ≠ ")") (h3 : S ≠ ",") :
    argShaped [raw S] := by
  unfold argShaped nesting
  simp [raw, h1, h2, h3, nesting]

theorem argShaped_of_yields (env : Defines) (outer : List String) (S : String)
    (ts : List Token) (h : Yields (fun n => expandIn n env outer [raw S]) (.ok ts))
    (hts : argShaped ts) : argShaped [raw S] := by
  obtain ⟨N, hN⟩ := h
  have hrun : run (N + 2) env outer [Item.tok (raw S)] = .ok ts := hN (N + 2) (by omega)
  have key : ∀ p : String, isIdentifier p = false → fnDef p = none →
      ¬ argShaped [raw p] → S ≠ p := by
    intro p hi hf hna he
    subst he
    rw [run_punctuation N env outer S hi hf] at hrun
    have : ts = [raw S] := (Outcome.ok.inj hrun).symm
    subst this
    exact hna hts
  exact argShaped_single S (key "(" (by decide) (by decide) (by decide))
    (key ")" (by decide) (by decide) (by decide))
    (key "," (by decide) (by decide) (by decide))

theorem final_rescan (env : Defines) (c : List Token) (k : Nat)
    (hc : ∀ t ∈ c, settled env t) (hk : c.length + 4 ≤ k) :
    run k env []
        (c.map Item.tok ++ [Item.pop "_CONCAT", Item.pop "CONCAT", Item.pop "SYMBOL_NAME"])
      = .ok (c.map rescanMark) := by
  obtain ⟨m, rfl⟩ : ∃ m, k = (m + 4) + c.length := ⟨k - (c.length + 4), by omega⟩
  rw [run_settled_disabled env [] _ (m + 4) ?_ c hc]
  · show (c.map rescanMark).foldr Outcome.emit (Outcome.ok []) = _
    rw [foldr_emit_ok, List.append_nil]
  · intro x d hd
    rcases fnDef_some x d hd with h | h | h <;> subst h <;> decide

/-! ## Pasting and spelling -/

theorem pasteArgs_mem (as bs c : List Token) (h : pasteArgs as bs = .ok c) :
    ∀ t ∈ c, t ∈ as ∨ t ∈ bs ∨
      ∃ a b, as.getLast? = some a ∧ bs.head? = some b ∧ t = raw (a.text ++ b.text) := by
  unfold pasteArgs at h
  cases hl : as.getLast? with
  | none =>
    simp only [hl] at h
    have : c = bs := (Outcome.ok.inj h).symm
    subst this
    intro t ht; exact Or.inr (Or.inl ht)
  | some a =>
    cases bs with
    | nil =>
      simp only [hl] at h
      have : c = as := (Outcome.ok.inj h).symm
      subst this
      intro t ht; exact Or.inl ht
    | cons b rest =>
      simp only [hl] at h
      split at h
      · have : c = as.dropLast ++ [raw (a.text ++ b.text)] ++ rest := (Outcome.ok.inj h).symm
        subst this
        intro t ht
        simp only [List.mem_append, List.mem_singleton] at ht
        rcases ht with (ht | ht) | ht
        · exact Or.inl (List.mem_of_mem_dropLast ht)
        · exact Or.inr (Or.inr ⟨a, b, rfl, rfl, ht⟩)
        · exact Or.inr (Or.inl (List.mem_cons_of_mem _ ht))
      · cases h

theorem pasteArgs_length (as bs c : List Token) (h : pasteArgs as bs = .ok c) :
    c.length ≤ as.length + bs.length := by
  unfold pasteArgs at h
  cases hl : as.getLast? with
  | none =>
    simp only [hl] at h
    have : c = bs := (Outcome.ok.inj h).symm
    subst this; omega
  | some a =>
    cases bs with
    | nil =>
      simp only [hl] at h
      have : c = as := (Outcome.ok.inj h).symm
      subst this; omega
    | cons b rest =>
      simp only [hl] at h
      split at h
      · have : c = as.dropLast ++ [raw (a.text ++ b.text)] ++ rest := (Outcome.ok.inj h).symm
        subst this
        simp only [List.length_append, List.length_dropLast, List.length_cons, List.length_nil]
        omega
      · cases h

theorem pasteArgs_ne_outOfFuel (as bs : List Token) : pasteArgs as bs ≠ .outOfFuel := by
  unfold pasteArgs
  cases as.getLast? with
  | none => simp
  | some a =>
    cases bs with
    | nil => simp
    | cons b rest =>
      simp only
      split <;> simp

theorem inert_of_yields (env : Defines) (outer : List String) (xs ts : List Token)
    (h : Yields (fun n => expandIn n env outer xs) (.ok ts)) (hn : noHeaderName ts) :
    ∀ t ∈ ts, inert env t :=
  fun t ht => inert_of_settled env t (yields_settled env outer xs ts h t ht) (hn t ht)

theorem inert_pasteArgs (env : Defines) (as bs c : List Token)
    (ha : ∀ t ∈ as, inert env t) (hb : ∀ t ∈ bs, inert env t)
    (hp : ∀ a b, as.getLast? = some a → bs.head? = some b →
      isMacroName env (a.text ++ b.text) = false)
    (h : pasteArgs as bs = .ok c) : ∀ t ∈ c, inert env t := by
  intro t ht
  rcases pasteArgs_mem as bs c h t ht with h1 | h1 | ⟨a, b, hl, hh, rfl⟩
  · exact ha t h1
  · exact hb t h1
  · exact Or.inr (hp a b hl hh)

theorem run_inert_pops2 (env : Defines) (c : List Token) (k : Nat) (p q : String)
    (hc : ∀ t ∈ c, inert env t) (hk : c.length + 3 ≤ k) :
    run k env [] (c.map Item.tok ++ [Item.pop p, Item.pop q]) = .ok c := by
  obtain ⟨m, rfl⟩ : ∃ m, k = (m + 3) + c.length := ⟨k - (c.length + 3), by omega⟩
  rw [run_inert env [] _ (m + 3) c hc]
  show c.foldr Outcome.emit (Outcome.ok []) = _
  rw [foldr_emit_ok, List.append_nil]

theorem CONCAT_plain (env : Defines) (A B : String) (as bs : List Token)
    (hA : Yields (fun n => expandIn n env [] [raw A]) (.ok as))
    (hB : Yields (fun n => expandIn n env [] [raw B]) (.ok bs))
    (has : argShaped as) (hbs : argShaped bs)
    (hha : noHeaderName as) (hhb : noHeaderName bs)
    (hp : ∀ a b, as.getLast? = some a → bs.head? = some b →
      isMacroName env (a.text ++ b.text) = false) :
    Yields (fun n => CONCAT n env [raw A] [raw B]) (pasteArgs as bs) := by
  have hAa := argShaped_of_yields env [] A as hA has
  have hBa := argShaped_of_yields env [] B bs hB hbs
  have hia := inert_of_yields env _ _ as hA hha
  have hib := inert_of_yields env _ _ bs hB hhb
  obtain ⟨NA, hNA⟩ := hA
  obtain ⟨NB, hNB⟩ := hB
  refine ⟨NA + NB + as.length + bs.length + 10, ?_⟩
  intro n hn
  obtain ⟨k, rfl⟩ : ∃ k, n = k + 2 := ⟨n - 2, by omega⟩
  have h := CONCAT_core k env [raw A] [raw B] as bs hAa hBa (hNA (k + 1) (by omega))
    (hNB (k + 1) (by omega)) has hbs
  rw [map_collectMark_inert env _ _ as hia, map_collectMark_inert env _ _ bs hib] at h
  show CONCAT (k + 2) env [raw A] [raw B] = _
  rw [h]
  cases hpa : pasteArgs as bs with
  | ok c =>
    have hlen := pasteArgs_length as bs c hpa
    show run k env [] _ = Outcome.ok c
    exact run_inert_pops2 env c k _ _ (inert_pasteArgs env as bs c hia hib hp hpa) (by omega)
  | failed w => rfl
  | outOfFuel => exact absurd hpa (pasteArgs_ne_outOfFuel as bs)

/-! ## A single settled token -/

theorem run_single (env : Defines) (outer : List String) (rest : List Item) (t : Token)
    (n : Nat) (ht : settled env t) (hsk : skipPops rest = [])
    (hrest : run n env outer rest = .ok []) :
    ∃ t', run (n + 1) env outer (Item.tok t :: rest) = .ok [t'] ∧ t'.text = t.text ∧
      settled env t' := by
  show ∃ t', step (run n env outer) (run n env) env outer (Item.tok t :: rest) = .ok [t'] ∧ _
  rw [step]
  by_cases hp : t.noexpand = true
  · refine ⟨t, ?_, rfl, ht⟩
    simp only [hp, if_true, hrest]
    rfl
  · simp only [hp]
    cases hd : fnDef t.text with
    | some d =>
      simp only
      by_cases hdis : disabled outer rest t.text = true
      · refine ⟨paint t, ?_, rfl, Or.inl rfl⟩
        simp only [hdis, if_true, hrest]
        rfl
      · refine ⟨t, ?_, rfl, ht⟩
        simp only [hdis, hsk, hrest]
        rfl
    | none =>
      rcases ht with ht | ht
      · exact absurd ht hp
      · refine ⟨t, ?_, rfl, Or.inr ht⟩
        simp only [ht, hrest]
        rfl

theorem settled_collectMark (env : Defines) (outer : List String) (rest : List Item)
    (t : Token) (h : settled env t) : settled env (collectMark env outer rest t) := by
  unfold collectMark
  split
  · exact Or.inl rfl
  · exact h

theorem argShaped_of_identifier (x : Token) (h : isIdentifier x.text = true) :
    argShaped [x] := by
  have h1 : x.text ≠ "(" := by intro he; rw [he] at h; exact absurd h (by decide)
  have h2 : x.text ≠ ")" := by intro he; rw [he] at h; exact absurd h (by decide)
  have h3 : x.text ≠ "," := by intro he; rw [he] at h; exact absurd h (by decide)
  unfold argShaped nesting
  simp [h1, h2, h3, nesting]

theorem isIdentifier_underscore (t : String) (h : isIdentifier t = true) :
    isIdentifier ("_" ++ t) = true := by
  unfold isIdentifier at h ⊢
  have hd : ("_" ++ t).data = '_' :: t.data := by
    rw [String.data_append]; rfl
  rw [hd]
  cases ht : t.data with
  | nil => rw [ht] at h; simp at h
  | cons c cs =>
    rw [ht] at h
    simp only [Bool.and_eq_true] at h
    obtain ⟨hc, hcs⟩ := h
    have hc2 : isIdentChar c = true := by
      unfold isIdentStart at hc
      unfold isIdentChar Char.isAlphanum
      rcases Bool.or_eq_true _ _ ▸ hc with h1 | h1
      · simp [h1]
      · simp [h1]
    simp only [List.all_cons, Bool.and_eq_true]
    exact ⟨by decide, hc2, hcs⟩

theorem singleton_of_texts (ts : List Token) (t : String) (h : texts ts = [t]) :
    ∃ s, ts = [s] ∧ s.text = t := by
  unfold texts at h
  cases ts with
  | nil => simp at h
  | cons s r =>
    simp only [List.map_cons, List.cons.injEq, List.map_eq_nil_iff] at h
    rw [h.2]
    exact ⟨s, rfl, h.1⟩

/-! ## Replacement lists without parameters or paste operators -/

theorem run_inert_pops1 (env : Defines) (c : List Token) (k : Nat) (p : String)
    (hc : ∀ t ∈ c, inert env t) (hk : c.length + 2 ≤ k) :
    run k env [] (c.map Item.tok ++ [Item.pop p]) = .ok c := by
  obtain ⟨m, rfl⟩ : ∃ m, k = (m + 2) + c.length := ⟨k - (c.length + 2), by omega⟩
  rw [run_inert env [] _ (m + 2) c hc]
  show c.foldr Outcome.emit (Outcome.ok []) = _
  rw [foldr_emit_ok, List.append_nil]

theorem isPPToken_of_identifier (s : String) (h : isIdentifier s = true) :
    isPPToken s = true := by
  unfold isPPToken
  simp [h]

/-! ## The claims -/

/-- C5 (counterexample): (a) with `ab` defined as `c`, `_CONCAT(a, b)` is `c`, because the
pasted `ab` is rescanned and replaced; (b) `_CONCAT(+, -)` fails because `+-` is no valid
token; (c) with `(` as first argument the argument list is unterminated. -/
theorem rawPaste_counterexample :
    Yields (fun n => _CONCAT n [("ab", ["c"])] [raw "a"] [raw "b"]) (.ok [raw "c"]) ∧
    Yields (fun n => _CONCAT n [] [raw "+"] [raw "-"]) (.failed .invalidPaste) ∧
    Yields (fun n => _CONCAT n [] [raw "("] [raw "b"]) (.failed .unterminated) :=
  ⟨yields_rawCONCAT 40 _ _ _ _ (by decide) (by decide),
   yields_rawCONCAT 40 _ _ _ _ (by decide) (by decide),
   yields_rawCONCAT 40 _ _ _ _ (by decide) (by decide)⟩

/-- C5 (amended): for tokens `A` and `B` other than parentheses and commas such that the
adjoined text `AB` is a valid token and not the name of an object-like macro, `_CONCAT(A, B)`
succeeds with the single token spelled `AB`, with neither `A` nor `B` expanded, whatever
`A` and `B` are bound to. -/
theorem rawPaste_single_token (env : Defines) (A B : String)
    (_hAt : isPPToken A = true) (_hBt : isPPToken B = true)
    (hA : argShaped [raw A]) (hB : argShaped [raw B])
    (hv : isPPToken (A ++ B) = true) (hp : objDef env (A ++ B) = none) :
    ∃ r, Yields (fun n => _CONCAT n env [raw A] [raw B]) (.ok [r]) ∧ r.text = A ++ B := by
  have hpa : pasteArgs [raw A] [raw B] = .ok [raw (A ++ B)] := by
    simp [pasteArgs, raw, hv]
  obtain ⟨t', hrun, htext, _⟩ := run_single env [] [Item.pop "_CONCAT"] (raw (A ++ B)) 2
    (Or.inr hp) rfl rfl
  refine ⟨t', ⟨4, ?_⟩, htext⟩
  intro n hn
  have hcore : _CONCAT 4 env [raw A] [raw B] = .ok [t'] := by
    rw [rawCONCAT_core 3 env [raw A] [raw B] hA hB, hpa]
    exact hrun
  exact run_mono 4 n env [] _ _ hcore (by simp) hn

theorem rawPaste_single_token_witness :
    ∃ r, Yields (fun n => _CONCAT n [("A", ["x"]), ("B", ["y"])] [raw "A"] [raw "B"])
      (.ok [r]) ∧ r.text = "A" ++ "B" :=
  rawPaste_single_token [("A", ["x"]), ("B", ["y"])] "A" "B" (by decide) (by decide)
    (by decide) (by decide) (by decide) (by decide)

/-- C9 (counterexample): with `ab` defined as `CONCAT(x, y)`, neither `a` nor `b` is a macro
name, yet `CONCAT(a, b)` is `CONCAT ( x , y )` (the nested `CONCAT` is disabled inside the
replacement of `CONCAT`) while `_CONCAT(a, b)` is `_CONCAT ( x , y )` (the nested `CONCAT`
is invoked). -/
theorem CONCAT_ne_rawCONCAT_counterexample :
    isMacroName [("ab", ["CONCAT", "(", "x", ",", "y", ")"])] "a" = false ∧
    isMacroName [("ab", ["CONCAT", "(", "x", ",", "y", ")"])] "b" = false ∧
    Yields (fun n => CONCAT n [("ab", ["CONCAT", "(", "x", ",", "y", ")"])] [raw "a"] [raw "b"])
      (.ok [paint (raw "CONCAT"), raw "(", raw "x", raw ",", raw "y", raw ")"]) ∧
    Yields (fun n => _CONCAT n [("ab", ["CONCAT", "(", "x", ",", "y", ")"])] [raw "a"] [raw "b"])
      (.ok [paint (raw "_CONCAT"), raw "(", raw "x", raw ",", raw "y", raw ")"]) :=
  ⟨by decide, by decide,
   yields_CONCAT 40 _ _ _ _ (by decide) (by decide),
   yields_rawCONCAT 40 _ _ _ _ (by decide) (by decide)⟩

/-- C9 (amended): for tokens `A` and `B` other than parentheses and commas, neither of which
is a macro name, and whose adjoined text `AB` is not a macro name either, `CONCAT(A, B)`
and `_CONCAT(A, B)` have the same result (the token `AB`, or the same invalid-paste
failure). -/
theorem CONCAT_eq_rawCONCAT_of_plain (env : Defines) (A B : String)
    (_hAt : isPPToken A = true) (_hBt : isPPToken B = true)
    (hA : isMacroName env A = false) (hB : isMacroName env B = false)
    (hAa : argShaped [raw A]) (hBa : argShaped [raw B])
    (hp : isMacroName env (A ++ B) = false) :
    ∃ r, r ≠ .outOfFuel ∧
      Yields (fun n => CONCAT n env [raw A] [raw B]) r ∧
      Yields (fun n => _CONCAT n env [raw A] [raw B]) r := by
  have hiA : ∀ t ∈ [raw A], inert env t := by
    intro t ht; rw [List.mem_singleton] at ht; subst ht; exact Or.inr hA
  have hiB : ∀ t ∈ [raw B], inert env t := by
    intro t ht; rw [List.mem_singleton] at ht; subst ht; exact Or.inr hB
  have hnA : noHeaderName [raw A] := by
    intro t ht; rw [List.mem_singleton] at ht; subst ht
    right
    unfold isMacroName at hA
    rw [Bool.or_eq_false_iff] at hA
    cases hf : fnDef (raw A).text with
    | none => rfl
    | some d =>
      have : fnDef A = some d := hf
      rw [this] at hA; exact absurd hA.1 (by simp)
  have hnB : noHeaderName [raw B] := by
    intro t ht; rw [List.mem_singleton] at ht; subst ht
    right
    unfold isMacroName at hB
    rw [Bool.or_eq_false_iff] at hB
    cases hf : fnDef (raw B).text with
    | none => rfl
    | some d =>
      have : fnDef B = some d := hf
      rw [this] at hB; exact absurd hB.1 (by simp)
  have hp' : ∀ a b, [raw A].getLast? = some a → [raw B].head? = some b →
      isMacroName env (a.text ++ b.text) = false := by
    intro a b ha hb
    have ha2 : a = raw A := (Option.some.inj ha).symm
    have hb2 : b = raw B := (Option.some.inj hb).symm
    subst ha2; subst hb2
    exact hp
  refine ⟨pasteArgs [raw A] [raw B], pasteArgs_ne_outOfFuel _ _, ?_, ?_⟩
  · exact CONCAT_plain env A B [raw A] [raw B]
      ⟨2, fun n hn => run_inert_all env [] [raw A] n hiA (by simpa using hn)⟩
      ⟨2, fun n hn => run_inert_all env [] [raw B] n hiB (by simpa using hn)⟩
      hAa hBa hnA hnB hp'
  · refine ⟨5, ?_⟩
    intro n hn
    obtain ⟨k, rfl⟩ : ∃ k, n = k + 1 := ⟨n - 1, by omega⟩
    show _CONCAT (k + 1) env [raw A] [raw B] = _
    rw [rawCONCAT_core k env [raw A] [raw B] hAa hBa]
    cases hpa : pasteArgs [raw A] [raw B] with
    | ok c =>
      have hlen := pasteArgs_length _ _ c hpa
      show run k env [] _ = Outcome.ok c
      exact run_inert_pops1 env c k _ (inert_pasteArgs env _ _ c hiA hiB hp' hpa)
        (by simp at hlen; omega)
    | failed w => rfl
    | outOfFuel => exact absurd hpa (pasteArgs_ne_outOfFuel _ _)

theorem CONCAT_eq_rawCONCAT_of_plain_witness :
    ∃ r, r ≠ .outOfFuel ∧
      Yields (fun n => CONCAT n [("FOO", ["bar"])] [raw "a"] [raw "b"]) r ∧
      Yields (fun n => _CONCAT n [("FOO", ["bar"])] [raw "a"] [raw "b"]) r :=
  CONCAT_eq_rawCONCAT_of_plain [("FOO", ["bar"])] "a" "b" (by decide) (by decide) (by decide)
    (by decide) (by decide) (by decide) (by decide)

/-- C10 (counterexample): with the prefix defined as `_` and `_tmp` defined as `1 + 2`, the
expansion of `tmp` is the single identifier `tmp`, yet `SYMBOL_NAME(tmp)` is the three
tokens `1 + 2`, none of which is an identifier. -/
theorem identifier_rescan_counterexample :
    Yields (fun n => expandIn n [("__USER_LABEL_PREFIX__", ["_"]), ("_tmp", ["1", "+", "2"])]
      ["SYMBOL_NAME"] [raw "__USER_LABEL_PREFIX__"]) (.ok [raw "_"]) ∧
    Yields (fun n => expandIn n [("__USER_LABEL_PREFIX__", ["_"]), ("_tmp", ["1", "+", "2"])]
      [] [raw "tmp"]) (.ok [raw "tmp"]) ∧
    isIdentifier "tmp" = true ∧
    Yields (fun n => SYMBOL_NAME n [("__USER_LABEL_PREFIX__", ["_"]), ("_tmp", ["1", "+", "2"])]
      [raw "tmp"]) (.ok [raw "1", raw "+", raw "2"]) ∧
    isIdentifier "1" = false ∧ isIdentifier "+" = false ∧ isIdentifier "2" = false :=
  ⟨yields_expandIn 40 _ _ _ _ (by decide) (by decide),
   yields_expandIn 40 _ _ _ _ (by decide) (by decide), by decide,
   yields_SYMBOL_NAME 40 _ _ _ (by decide) (by decide), by decide, by decide, by decide⟩

/-- C10 (amended): when the prefix expands to nothing or to `_`, the expansion of `S` is a
single well-formed identifier `t`, and (for the prefix `_`) the pasted token `_t` is not
itself the name of an object-like macro, `SYMBOL_NAME(S)` succeeds with a single
well-formed identifier. -/
theorem SYMBOL_NAME_identifier (env : Defines) (S t : String) (ps ts : List Token)
    (hP : Yields (fun n => expandIn n env ["SYMBOL_NAME"] [raw "__USER_LABEL_PREFIX__"])
      (.ok ps))
    (hpre : ps = [] ∨ texts ps = ["_"])
    (hS : Yields (fun n => expandIn n env [] [raw S]) (.ok ts))
    (hs : texts ts = [t]) (hid : isIdentifier t = true)
    (hp : texts ps = ["_"] → objDef env ("_" ++ t) = none) :
    ∃ r x, Yields (fun n => SYMBOL_NAME n env [raw S]) (.ok r) ∧ texts r = [x] ∧
      isIdentifier x = true := by
  obtain ⟨s, rfl, hst⟩ := singleton_of_texts ts t hs
  have hsets : settled env s := yields_settled env _ _ _ hS s (List.mem_singleton.mpr rfl)
  have hsarg : argShaped [s] := argShaped_of_identifier s (by rw [hst]; exact hid)
  have hSa := argShaped_of_yields env [] S [s] hS hsarg
  have hsetp := yields_settled env _ _ _ hP
  -- the expansion of `S` is expanded once more as an argument of `CONCAT`
  obtain ⟨s2, hrun2, hs2t, hs2set⟩ := run_single env ["SYMBOL_NAME"] []
    (collectMark env [] [Item.pop "SYMBOL_NAME"] s) 1
    (settled_collectMark env _ _ s hsets) rfl rfl
  rw [collectMark_text, hst] at hs2t
  have hs2arg : argShaped [s2] := argShaped_of_identifier s2 (by rw [hs2t]; exact hid)
  have hs3set := settled_collectMark env [] [Item.pop "CONCAT", Item.pop "SYMBOL_NAME"] s2 hs2set
  have hs3t : (collectMark env [] [Item.pop "CONCAT", Item.pop "SYMBOL_NAME"] s2).text = t := by
    rw [collectMark_text, hs2t]
  obtain ⟨NS, hNS⟩ := hS
  obtain ⟨NP, hNP⟩ := hP
  have core : ∀ k, NS + NP + 10 ≤ k → argShaped ps →
      SYMBOL_NAME (k + 3) env [raw S]
        = (pasteArgs (ps.map (collectMark env [] [Item.pop "CONCAT", Item.pop "SYMBOL_NAME"]))
            ([s2].map (collectMark env [] [Item.pop "CONCAT", Item.pop "SYMBOL_NAME"]))).bind
          (fun c => run k env []
            (c.map Item.tok ++ [Item.pop "_CONCAT", Item.pop "CONCAT", Item.pop "SYMBOL_NAME"])) :=
    fun k hk hps =>
      SYMBOL_NAME_core k env [raw S] [s] [s2] ps hSa (hNS (k + 2) (by omega)) hsarg
        (hNP (k + 1) (by omega))
        (run_mono 2 (k + 1) env _ _ _ hrun2 (by simp) (by omega)) hps hs2arg
  rcases hpre with he | hu
  · subst he
    refine ⟨[rescanMark (collectMark env [] [Item.pop "CONCAT", Item.pop "SYMBOL_NAME"] s2)],
      t, ⟨NS + NP + 13, ?_⟩, ?_, hid⟩
    · intro n hn
      obtain ⟨k, rfl⟩ : ∃ k, n = k + 3 := ⟨n - 3, by omega⟩
      show SYMBOL_NAME (k + 3) env [raw S] = _
      rw [core k (by omega) (by decide)]
      show run k env [] ([collectMark env [] [Item.pop "CONCAT", Item.pop "SYMBOL_NAME"] s2].map
        Item.tok ++ _) = _
      rw [final_rescan env _ k (by
        intro u hu; rw [List.mem_singleton] at hu; subst hu; exact hs3set) (by simp; omega)]
      rfl
    · show [(rescanMark _).text] = [t]
      rw [rescanMark_text, hs3t]
  · obtain ⟨p, rfl, hpt⟩ := singleton_of_texts ps "_" hu
    have hparg : argShaped [p] := argShaped_of_identifier p (by rw [hpt]; decide)
    have hpin : inert env p :=
      inert_of_settled env p (hsetp p (List.mem_singleton.mpr rfl))
        (Or.inr (by rw [hpt]; decide))
    have hvalid : isPPToken (p.text ++
        (collectMark env [] [Item.pop "CONCAT", Item.pop "SYMBOL_NAME"] s2).text) = true := by
      rw [hpt, hs3t]
      exact isPPToken_of_identifier _ (isIdentifier_underscore t hid)
    refine ⟨[rescanMark (raw ("_" ++ t))], "_" ++ t, ⟨NS + NP + 13, ?_⟩, ?_,
      isIdentifier_underscore t hid⟩
    · intro n hn
      obtain ⟨k, rfl⟩ : ∃ k, n = k + 3 := ⟨n - 3, by omega⟩
      show SYMBOL_NAME (k + 3) env [raw S] = _
      rw [core k (by omega) hparg, List.map_cons, List.map_nil,
        collectMark_of_inert env _ _ p hpin]
      have hpa : pasteArgs [p]
          ([s2].map (collectMark env [] [Item.pop "CONCAT", Item.pop "SYMBOL_NAME"]))
          = .ok [raw ("_" ++ t)] := by
        rw [hpt, hs3t] at hvalid
        simp only [List.map_cons, List.map_nil, pasteArgs, List.getLast?_singleton,
          List.dropLast_single, List.nil_append, List.append_nil, hpt, hs3t, hvalid, if_true]
      rw [hpa]
      show run k env [] ([raw ("_" ++ t)].map Item.tok ++ _) = _
      rw [final_rescan env _ k (by
        intro u hu2; rw [List.mem_singleton] at hu2; subst hu2; exact Or.inr (hp hu))
        (by simp; omega)]
      rfl
    · show [(rescanMark _).text] = ["_" ++ t]
      rw [rescanMark_text]
      rfl

theorem SYMBOL_NAME_identifier_witness :
    ∃ r x, Yields (fun n => SYMBOL_NAME n
        [("__USER_LABEL_PREFIX__", ["_"]), ("ENTRY", ["start"])] [raw "ENTRY"]) (.ok r) ∧
      texts r = [x] ∧ isIdentifier x = true :=
  SYMBOL_NAME_identifier [("__USER_LABEL_PREFIX__", ["_"]), ("ENTRY", ["start"])] "ENTRY"
    "start" [raw "_"] [raw "start"]
    (yields_expandIn 10 _ _ _ _ (by decide) (by decide)) (Or.inr (by decide))
    (yields_expandIn 10 _ _ _ _ (by decide) (by decide)) (by decide) (by decide)
    (fun _ => by decide)
